import Mathlib

/-!
Verification of the dorado read-correction `CorrectionNode` (CorrectionNode.cpp).

This file shallowly embeds the reassembly, batching, inference-retry and
device-move logic of the correction pipeline and proves the specification
claims about them.  Strings model `std::string`, lists model `std::vector`,
and the two per-read maps are modelled as functions into `Option`.
-/

namespace DoradoCorrection

/-! ### Output records -/

/-- A corrected output record, modelling the BAM record built by
`create_bam_record(read_id, seq)`: the record name and the corrected sequence. -/
structure BamRecord where
  name : String
  seq : String
deriving DecidableEq

/-! ### `concatenate_corrected_windows` -/

/-- The loop of `concatenate_corrected_windows`: `out` is the `corrected_seqs`
vector accumulated so far and `buf` is the running `corrected_seq` buffer.
On an empty window string a non-empty buffer is emitted and reset; a non-empty
window string is appended to the buffer; at the end a non-empty buffer is
emitted. -/
def concat_go : List String → List String → String → List String
  | [], out, buf => if buf.isEmpty then out else out ++ [buf]
  | s :: rest, out, buf =>
    if s.isEmpty then
      if buf.isEmpty then concat_go rest out buf
      else concat_go rest (out ++ [buf]) ""
    else concat_go rest out (buf ++ s)

/-- `concatenate_corrected_windows(cons)`: stitch per-window consensus strings
into output sequences, starting from an empty vector and an empty buffer. -/
def concatenate_corrected_windows (cons : List String) : List String :=
  concat_go cons [] ""

/-- Specification-side helper (refinement target, written from the spec's words,
not from the code): split the list of window strings at the empty strings, so
that the non-empty groups are exactly the maximal runs of non-empty strings. -/
def empty_separated_groups : List String → List (List String)
  | [] => [[]]
  | s :: rest =>
    if s.isEmpty then [] :: empty_separated_groups rest
    else
      match empty_separated_groups rest with
      | [] => [[s]]
      | g :: gs => (s :: g) :: gs

/-- Specification-side definition of the concatenation rule, following the spec:
"the output sequences are exactly the maximal runs of non-empty strings joined
in order; empty strings act as separators". -/
def maximal_runs_joined (l : List String) : List String :=
  ((empty_separated_groups l).filter (fun g => !g.isEmpty)).map String.join

/-- `CorrectionNode::concat_features_and_send`: concatenate the per-window
strings; a single resulting sequence keeps the read name, several resulting
sequences get names `<name>:<k>` for the k-th sub-sequence. -/
def concat_features_and_send (to_decode : List String) (read_name : String) :
    List BamRecord :=
  let corrected_seqs := concatenate_corrected_windows to_decode
  if corrected_seqs.length = 1 then
    [⟨read_name, corrected_seqs.headD ""⟩]
  else
    (List.range corrected_seqs.length).map fun s =>
      ⟨read_name ++ ":" ++ toString s, corrected_seqs.getD s ""⟩

/-! ### Window features and the ingestion dispatch -/

/-- The fields of `WindowFeatures` that the pipeline logic depends on.  `cols`
is the MSA column count `bases.sizes()[1]`; `length` is the `length` field
accumulated into `lengths`/`sizes`; `supported` the supported-column list;
`target_slice` the bases of the window's target slice (what the trivial decode
emits); `inferred_bases` is filled by the inference stage. -/
structure WindowFeatures where
  read_name : String
  window_idx : Nat
  n_alns : Nat
  supported : List Nat
  length : Nat
  cols : Nat
  target_slice : String
  inferred_bases : List Char := []
deriving DecidableEq

/-- The dispatch test of `input_thread_fn`:
`wfs[w].n_alns > 1 && wfs[w].supported.size() > 0`. -/
def needs_inference (wf : WindowFeatures) : Bool :=
  decide (1 < wf.n_alns) && decide (0 < wf.supported.length)

/-- Modelled from the spec: `decode_window` (correct/decode.h) is not among the
sources given here.  Spec §4.5: for a trivial window the consensus emitted is
the window's target-slice bases.  Only this trivial case is exercised by the
ingestion path modelled below; decoded strings of inferred windows enter the
model as event data. -/
def trivial_decode (wf : WindowFeatures) : String := wf.target_slice

/-! ### The reassembly maps -/

/-- The two per-read reassembly maps of `CorrectionNode`, guarded by
`m_features_mutex`: `m_features_by_id` and `m_pending_features_by_id`. -/
structure CorrState where
  features : String → Option (List String)
  pending : String → Option Int

/-- Both maps start empty. -/
def empty_state : CorrState := ⟨fun _ => none, fun _ => none⟩

/-- The per-message reassembly logic of `input_thread_fn` (lines 385-416):
split the windows into trivial ones (decoded at ingestion) and windows needing
inference; a message all of whose windows are trivial is concatenated and
emitted immediately; otherwise the slot vector and pending count are inserted,
unless the read name already has an entry, in which case the message is logged
and dropped (`continue` also skips the push loop).  Returns the new map state,
the windows pushed to `m_features_queue`, and the records sent to the sink. -/
def input_step (decodeW : WindowFeatures → String) (st : CorrState)
    (tname : String) (wfs : List WindowFeatures) :
    CorrState × List WindowFeatures × List BamRecord :=
  let corrected_seqs := wfs.map fun wf => if needs_inference wf then "" else decodeW wf
  let features_to_infer := wfs.filter needs_inference
  if features_to_infer.isEmpty then
    (st, [], concat_features_and_send corrected_seqs tname)
  else
    match st.features tname with
    | some _ => (st, [], [])
    | none =>
        ({ features := fun n => if n = tname then some corrected_seqs else st.features n
           pending := fun n => if n = tname then some (features_to_infer.length : Int)
                               else st.pending n },
         features_to_infer, [])

/-- One iteration of `decode_fn` after `decode_window` produced the string `s`
for window `idx` of read `name` (lines 174-191): under the mutex, write the
slot, decrement the pending count, and on reaching zero move the slot vector
out and erase both map entries.  Returns the new state together with the
moved-out slot vector when the read completed. -/
def decode_event (st : CorrState) (name : String) (idx : Nat) (s : String) :
    CorrState × Option (List String) :=
  match st.features name with
  | none => (st, none)
  | some slots =>
    match st.pending name with
    | none => (st, none)
    | some p =>
      let slots2 := slots.set idx s
      if p - 1 = 0 then
        ({ features := fun n => if n = name then none else st.features n
           pending := fun n => if n = name then none else st.pending n },
         some slots2)
      else
        ({ features := fun n => if n = name then some slots2 else st.features n
           pending := fun n => if n = name then some (p - 1) else st.pending n },
         none)

/-- The mutex-serialised operations performed on the reassembly maps. -/
inductive CorrEvent where
  | input (tname : String) (wfs : List WindowFeatures)
  | decoded (name : String) (idx : Nat) (s : String)

/-- A whole interleaving of map operations, starting from a given state. -/
def corr_run (decodeW : WindowFeatures → String) :
    CorrState → List CorrEvent → CorrState
  | st, [] => st
  | st, CorrEvent.input t wfs :: evs =>
      corr_run decodeW (input_step decodeW st t wfs).1 evs
  | st, CorrEvent.decoded n i s :: evs =>
      corr_run decodeW (decode_event st n i s).1 evs

/-- The key-synchronisation invariant of the two maps. -/
def maps_key_sync (st : CorrState) : Prop :=
  ∀ n, (st.features n).isSome = (st.pending n).isSome

/-! ### The per-read completion record -/

/-- The per-read reassembly record: the slot vector `m_features_by_id[name]`
and the counter `m_pending_features_by_id[name]`, plus specification
instrumentation `wc` counting how many times each slot has been written. -/
structure ReadEntry where
  slots : List String
  pending : Int
  wc : Nat → Nat

/-- The record as created by `input_thread_fn`: trivial windows are decoded
into their slots (each written once at ingestion), windows needing inference
are counted as pending and their slots start unwritten. -/
def initial_entry (decodeW : WindowFeatures → String)
    (wfs : List WindowFeatures) : ReadEntry :=
  { slots := wfs.map fun wf => if needs_inference wf then "" else decodeW wf
    pending := ((wfs.filter needs_inference).length : Int)
    wc := fun i => if (wfs.map needs_inference).getD i true then 0 else 1 }

/-- The slot write and pending decrement performed by `decode_fn` for one
decoded window. -/
def decode_write (st : ReadEntry) (idx : Nat) (s : String) : ReadEntry :=
  { slots := st.slots.set idx s
    pending := st.pending - 1
    wc := fun i => if i = idx then st.wc i + 1 else st.wc i }

/-- `decode_fn`'s processing of a sequence of decoded windows `(window_idx, s)`
of a single read: after each write, if the pending count reached zero, the slot
vector is moved out and concatenated.  Returns the final record and the list of
concatenation invocations. -/
def decode_run (read_name : String) (st : ReadEntry) :
    List (Nat × String) → ReadEntry × List (List BamRecord)
  | [] => (st, [])
  | (idx, s) :: evs =>
    let st2 := decode_write st idx s
    let rest := decode_run read_name st2 evs
    (rest.1,
     (if st2.pending = 0 then [concat_features_and_send st2.slots read_name]
      else []) ++ rest.2)

/-- Positions of the windows of a message that are dispatched to inference. -/
def inference_indices (wfs : List WindowFeatures) : List Nat :=
  (List.range wfs.length).filter fun i => (wfs.map needs_inference).getD i false

/-! ### The inference batcher -/

/-- The accumulator state of one inference worker in `infer_fn`: `wfs` is the
accumulated window list (the `bases_batch`/`quals_batch`/`lengths`/`sizes`/
`indices_batch` vectors all run parallel to it), `remaining_batch_slots` the
slot budget, and `flushed` records each batch handed to `batch_infer`. -/
structure InferState where
  wfs : List WindowFeatures
  remaining_batch_slots : Int
  flushed : List (List WindowFeatures)
deriving DecidableEq

/-- `required_batch_slots` of one window:
`(int)item.bases.sizes()[1] / 5120 + 1` (integer division). -/
def required_batch_slots (wf : WindowFeatures) : Int :=
  ((wf.cols / 5120 : Nat) : Int) + 1

/-- `batch_infer`'s effect on the accumulator: the current batch is recorded as
flushed, the parallel vectors are cleared, and the slot budget is reset to
`batch_size`. -/
def flush_batch (batch_size : Int) (st : InferState) : InferState :=
  { wfs := [], remaining_batch_slots := batch_size,
    flushed := st.flushed ++ [st.wfs] }

/-- The arrival of one window in `infer_fn`'s loop (lines 324-341): if the
required slots exceed the remaining budget the accumulator is flushed first;
the window is then accepted and its slots claimed. -/
def collect_window (batch_size : Int) (st : InferState) (wf : WindowFeatures) :
    InferState :=
  let required := required_batch_slots wf
  let st2 := if st.remaining_batch_slots < required then flush_batch batch_size st
             else st
  { st2 with wfs := st2.wfs ++ [wf],
             remaining_batch_slots := st2.remaining_batch_slots - required }

/-- One interaction of `infer_fn` with `m_features_queue`: `item` is a popped
window, `timeout` a `try_pop_until` 10-second-deadline timeout, `terminate`
queue termination. -/
inductive QueueEvent where
  | item (wf : WindowFeatures)
  | timeout
  | terminate
deriving DecidableEq

/-- The main loop of `infer_fn` (lines 307-346) over a trace of queue
interactions: on a timeout a non-empty accumulator is flushed and the loop
continues; on termination the loop breaks and a non-empty accumulator is
flushed once more before the worker exits; on an item the window is collected. -/
def infer_loop (batch_size : Int) : InferState → List QueueEvent → InferState
  | st, [] => st
  | st, QueueEvent.terminate :: _ =>
      if st.wfs.isEmpty then st else flush_batch batch_size st
  | st, QueueEvent.timeout :: evs =>
      infer_loop batch_size (if st.wfs.isEmpty then st else flush_batch batch_size st)
        evs
  | st, QueueEvent.item wf :: evs =>
      infer_loop batch_size (collect_window batch_size st wf) evs

/-- The windows accepted into the accumulator before the queue terminates. -/
def accepted_windows : List QueueEvent → List WindowFeatures
  | [] => []
  | QueueEvent.terminate :: _ => []
  | QueueEvent.timeout :: evs => accepted_windows evs
  | QueueEvent.item wf :: evs => wf :: accepted_windows evs

/-! ### Prediction splitting and decoding -/

/-- `torch::split_with_sizes` on a 1-D tensor, as applied to the argmax
predictions: succeeds iff the sizes sum to the tensor length, yielding
consecutive pieces of the given sizes. -/
def split_with_sizes {α : Type} : List α → List Nat → Option (List (List α))
  | preds, [] => if preds.isEmpty then some [] else none
  | preds, n :: ns =>
    if n ≤ preds.length then
      (split_with_sizes (preds.drop n) ns).map fun rest => preds.take n :: rest
    else none

/-- `decode_preds`: map each predicted class index through the 5-symbol decoder
`{0:A, 1:C, 2:G, 3:T, 4:*}`. -/
def decode_preds (preds : List (Fin 5)) : List Char :=
  preds.map fun i => (['A', 'C', 'G', 'T', '*'] : List Char).get i

/-- The prediction-splitting step of `batch_infer` (lines 284-290): split the
argmax predictions by the accumulated `sizes` (one entry `wf.length` per
window) and store each window's decoded bases into its `inferred_bases`. -/
def split_predictions (preds : List (Fin 5)) (wfs : List WindowFeatures) :
    Option (List WindowFeatures) :=
  (split_with_sizes preds (wfs.map WindowFeatures.length)).map fun pieces =>
    (wfs.zip pieces).map fun p => { p.1 with inferred_bases := decode_preds p.2 }

/-- Modelled from the spec: `extract_features` (correct/features.h) is not
among the sources given here.  The spec fixes the backend contract — the logits
returned for a batch have one row per supported column (shape
`[Σ supported_i, C]`) and after inference `inferred_bases` has length
`|supported|` — so the `length` field set by feature extraction and accumulated
into `lengths`/`sizes` equals the number of supported columns of the window. -/
def extract_features_length (supported : List Nat) : Nat := supported.length

/-! ### The forward call with retry -/

/-- Result of one `module.forward` attempt. -/
inductive ForwardResult (α : Type) where
  | ok (out : α)
  | err (msg : String)
deriving DecidableEq

/-- Outcome of the guarded forward call: the final result, how many times the
device caching allocator was cleared, and how many forward attempts ran. -/
structure RetryOutcome (α : Type) where
  result : ForwardResult α
  cache_clears : Nat
  forward_attempts : Nat
deriving DecidableEq

/-- The try/catch around `module.forward` in `batch_infer` (lines 268-279, CUDA
build): a successful first attempt is used directly; on a caught runtime error
the allocator cache is cleared once and the very same inputs are retried; the
retry's outcome — success or a second error — is not caught, so a second error
propagates out of the worker. -/
def forward_with_retry {α : Type} (first retry : ForwardResult α) :
    RetryOutcome α :=
  match first with
  | ForwardResult.ok out => ⟨ForwardResult.ok out, 0, 1⟩
  | ForwardResult.err _ => ⟨retry, 1, 2⟩

/-! ### The move-to-device block -/

/-- A tensor device. -/
inductive Device where
  | cpu
  | cuda (index : Nat)
deriving DecidableEq

/-- The part of an `at::Tensor` the device-move logic acts on.  `Tensor::to`
returns a copy on the target device and does not mutate the receiver. -/
structure MTensor where
  device : Device
  payload : Nat
deriving DecidableEq

/-- `at::Tensor::to(device)`: a copy on the target device. -/
def MTensor.to (t : MTensor) (d : Device) : MTensor := { t with device := d }

/-- The tensors pushed into `inputs` for `module.forward`. -/
structure ForwardInputs where
  batched_bases : MTensor
  batched_quals : MTensor
  length_tensor : MTensor
  indices_batch : List MTensor
deriving DecidableEq

/-- The `move_to_device` block of `batch_infer` (lines 257-266): the collated
bases, quals and length tensors are pushed as `.to(device)` copies; the
`std::for_each` over `indices_batch` calls `t.to(device)` but discards the
returned tensor, so the tensors subsequently pushed into `inputs` are the
originals, still on their original device. -/
def move_to_device (device : Device)
    (batched_bases batched_quals length_tensor : MTensor)
    (indices_batch : List MTensor) : ForwardInputs :=
  { batched_bases := batched_bases.to device
    batched_quals := batched_quals.to device
    length_tensor := length_tensor.to device
    indices_batch := indices_batch.map fun t =>
      let _moved := t.to device
      t }

/-! ### Sample values used by the witnesses -/

/-- A sample window that needs inference: 2 alignment rows, one supported
column. -/
def wf_infer : WindowFeatures :=
  ⟨"r", 1, 2, [0], 1, 100, "G", []⟩

/-- A sample trivial window: a single alignment row and no supported column. -/
def wf_trivial : WindowFeatures :=
  ⟨"r", 0, 1, [], 0, 50, "A", []⟩

/-- A sample wide window: 12000 MSA columns claim 3 batch slots. -/
def wf_wide : WindowFeatures :=
  ⟨"r", 2, 3, [0, 1], 2, 12000, "GG", []⟩

/-! ### Theorems -/

theorem groups_cons (s : String) (t : List String) :
    empty_separated_groups (s :: t) =
      if s.isEmpty then [] :: empty_separated_groups t
      else
        match empty_separated_groups t with
        | [] => [[s]]
        | g :: gs => (s :: g) :: gs := rfl

theorem groups_ne_nil (l : List String) : empty_separated_groups l ≠ [] := by
  cases l with
  | nil => simp [empty_separated_groups]
  | cons s rest =>
    rw [groups_cons]
    split
    · simp
    · split <;> simp

theorem sjoin_cons (a : String) (l : List String) :
    String.join (a :: l) = a ++ String.join l := by
  apply String.ext
  simp [String.data_join]

theorem sjoin_nil : String.join ([] : List String) = "" := rfl

theorem str_append_empty (s : String) : s ++ "" = s := by
  apply String.ext
  simp

theorem str_isEmpty_false : ("" : String).isEmpty = true := rfl

theorem str_isEmpty_append_right (a b : String) (hb : b.isEmpty = false) :
    (a ++ b).isEmpty = false := by
  cases he : (a ++ b).isEmpty
  · rfl
  · exfalso
    have h1 : a ++ b = "" := (String.isEmpty_iff _).mp he
    have h2 : a.data ++ b.data = [] := by
      have := congrArg String.data h1
      simpa using this
    have hbdata : b.data = [] := (List.append_eq_nil.mp h2).2
    have hbe : b = "" := String.ext hbdata
    rw [hbe] at hb
    exact absurd hb (by decide)

theorem concat_go_eq (l : List String) : ∀ (out : List String) (buf : String),
    concat_go l out buf
      = out ++ (if buf.isEmpty then maximal_runs_joined l
                else maximal_runs_joined (buf :: l)) := by
  induction l with
  | nil =>
    intro out buf
    cases hb : buf.isEmpty
    · have hgroups : empty_separated_groups (buf :: []) = [[buf]] := by
        rw [groups_cons]
        simp [hb, empty_separated_groups]
      simp only [concat_go, hb, Bool.false_eq_true, if_false, maximal_runs_joined,
        hgroups, List.filter_cons, List.isEmpty_cons, Bool.not_false, if_true,
        List.filter_nil, List.map_cons, List.map_nil]
      rw [sjoin_cons, sjoin_nil, str_append_empty]
    · simp [concat_go, hb, maximal_runs_joined, empty_separated_groups]
  | cons s t ih =>
    intro out buf
    obtain ⟨g, gs, hgt⟩ := List.exists_cons_of_ne_nil (groups_ne_nil t)
    cases hs : s.isEmpty
    · -- s non-empty: it is appended to the buffer
      have hgroups_st : empty_separated_groups (s :: t) = (s :: g) :: gs := by
        rw [groups_cons, hgt]
        simp [hs]
      cases hb : buf.isEmpty
      · -- buffer non-empty
        have hbs : (buf ++ s).isEmpty = false := str_isEmpty_append_right _ _ hs
        simp only [concat_go, hs, Bool.false_eq_true, if_false]
        rw [ih out (buf ++ s)]
        simp only [hbs, Bool.false_eq_true, if_false, hb]
        congr 1
        have hgroups_bst : empty_separated_groups (buf :: s :: t)
            = (buf :: s :: g) :: gs := by
          rw [groups_cons, hgroups_st]
          simp [hb]
        have hgroups_bs : empty_separated_groups ((buf ++ s) :: t)
            = ((buf ++ s) :: g) :: gs := by
          rw [groups_cons, hgt]
          simp [hbs]
        have hjoin : String.join ((buf ++ s) :: g) = String.join (buf :: s :: g) := by
          rw [sjoin_cons, sjoin_cons, sjoin_cons, String.append_assoc]
        simp only [maximal_runs_joined, hgroups_bst, hgroups_bs, List.filter_cons,
          List.isEmpty_cons, Bool.not_false, if_true, List.map_cons, hjoin]
      · -- buffer empty, i.e. buf = ""
        have hbe : buf = "" := (String.isEmpty_iff _).mp hb
        subst hbe
        simp only [concat_go, hs, Bool.false_eq_true, if_false]
        rw [ih out ("" ++ s)]
        have hse : (("" : String) ++ s) = s := rfl
        rw [hse]
        simp only [hs, Bool.false_eq_true, if_false, str_isEmpty_false, if_true]
    · -- s empty: flush the buffer if non-empty
      have hgroups_st : empty_separated_groups (s :: t)
          = [] :: empty_separated_groups t := by
        rw [groups_cons]
        simp [hs]
      have hmrj_st : maximal_runs_joined (s :: t) = maximal_runs_joined t := by
        simp only [maximal_runs_joined, hgroups_st, List.filter_cons]
        simp
      cases hb : buf.isEmpty
      · -- buffer non-empty: emit it
        simp only [concat_go, hs, if_true, hb, Bool.false_eq_true, if_false]
        rw [ih (out ++ [buf]) ""]
        simp only [str_isEmpty_false, if_true]
        have hgroups_bst : empty_separated_groups (buf :: s :: t)
            = [buf] :: empty_separated_groups t := by
          rw [groups_cons, hgroups_st]
          simp [hb]
        have hmrj_bst : maximal_runs_joined (buf :: s :: t)
            = buf :: maximal_runs_joined t := by
          simp only [maximal_runs_joined, hgroups_bst, List.filter_cons,
            List.isEmpty_cons, Bool.not_false, if_true, List.map_cons]
          rw [sjoin_cons, sjoin_nil, str_append_empty]
        rw [hmrj_bst]
        simp
      · -- buffer empty: skip the separator
        have hbe : buf = "" := (String.isEmpty_iff _).mp hb
        subst hbe
        simp only [concat_go, hs, if_true]
        rw [ih out ""]
        simp only [str_isEmpty_false, if_true, hmrj_st]

/-- The emitted sequences are exactly the joined maximal runs. -/
theorem concat_eq_maximal_runs (cons : List String) :
    concatenate_corrected_windows cons = maximal_runs_joined cons := by
  unfold concatenate_corrected_windows
  rw [concat_go_eq]
  simp only [str_isEmpty_false, if_true, List.nil_append]

theorem range_map_getD {α : Type} (l : List α) (d : α) :
    (List.range l.length).map (fun i => l.getD i d) = l := by
  induction l with
  | nil => simp
  | cons a t ih =>
    simp only [List.length_cons]
    rw [List.range_succ_eq_map]
    simp only [List.map_cons, List.map_map]
    simp only [List.getD_cons_zero]
    rw [show (fun i => (a :: t).getD i d) ∘ Nat.succ = fun i => t.getD i d from rfl]
    exact congrArg _ ih

/-- Claim C1: the emitted output sequences are exactly the maximal runs of
non-empty window strings joined in order (empty strings act as separators), and
the record names are the read name when exactly one sequence results, or
`<name>:0 … <name>:<k-1>` in order when `k ≥ 2` sequences result (and no record
at all when every window string is empty). -/
theorem c1_reassembly_concatenation_and_naming (cons : List String) (name : String) :
    (concat_features_and_send cons name).map BamRecord.seq = maximal_runs_joined cons
    ∧ (concat_features_and_send cons name).map BamRecord.name
        = (if (maximal_runs_joined cons).length = 1 then [name]
           else (List.range (maximal_runs_joined cons).length).map
             (fun k => name ++ ":" ++ toString k)) := by
  unfold concat_features_and_send
  rw [concat_eq_maximal_runs]
  by_cases h : (maximal_runs_joined cons).length = 1
  · obtain ⟨a, ha⟩ := List.length_eq_one.mp h
    rw [ha] at h ⊢
    simp [h]
  · simp only [h, if_neg, if_false]
    constructor
    · rw [List.map_map]
      exact range_map_getD _ _
    · rw [List.map_map]
      rfl

/-! ### Claims C4, C6, C7, C9: the inference worker -/

/-- Claim C4: every arriving window with MSA column count `W` claims
`floor(W / 5120) + 1` slots; when the claim exceeds the remaining budget the
accumulator is flushed first — resetting the budget to `batch_size` — and the
window is then accepted; concretely, with `batch_size = 4`, two consecutive
windows each claiming 3 slots (12000 columns) force a flush between them. -/
theorem c4_batch_slot_policy :
    (∀ (batch_size : Int) (st : InferState) (wf : WindowFeatures),
      required_batch_slots wf = ((wf.cols / 5120 : Nat) : Int) + 1
      ∧ collect_window batch_size st wf =
          (if st.remaining_batch_slots < required_batch_slots wf then
            { wfs := [wf],
              remaining_batch_slots := batch_size - required_batch_slots wf,
              flushed := st.flushed ++ [st.wfs] }
          else
            { wfs := st.wfs ++ [wf],
              remaining_batch_slots :=
                st.remaining_batch_slots - required_batch_slots wf,
              flushed := st.flushed }))
    ∧ collect_window 4 (collect_window 4 ⟨[], 4, []⟩ wf_wide) wf_wide
        = ⟨[wf_wide], 1, [[wf_wide]]⟩ := by
  refine ⟨fun batch_size st wf => ⟨rfl, ?_⟩, by decide⟩
  unfold collect_window
  by_cases h : st.remaining_batch_slots < required_batch_slots wf
  · simp [h, flush_batch]
  · simp [h]

theorem collect_window_potential (batch_size : Int) (st : InferState)
    (wf : WindowFeatures) :
    (collect_window batch_size st wf).flushed.flatten
        ++ (collect_window batch_size st wf).wfs
      = st.flushed.flatten ++ st.wfs ++ [wf] := by
  unfold collect_window
  by_cases h : st.remaining_batch_slots < required_batch_slots wf
  · simp [h, flush_batch]
  · simp [h]

theorem infer_loop_flushes_all (batch_size : Int) (evs : List QueueEvent) :
    ∀ st : InferState, QueueEvent.terminate ∈ evs →
      (infer_loop batch_size st evs).flushed.flatten
          = st.flushed.flatten ++ st.wfs ++ accepted_windows evs
      ∧ (infer_loop batch_size st evs).wfs = [] := by
  induction evs with
  | nil =>
    intro st h
    simp at h
  | cons e evs ih =>
    intro st hterm
    cases e with
    | terminate =>
      simp only [infer_loop, accepted_windows]
      by_cases h : st.wfs.isEmpty
      · have h2 : st.wfs = [] := List.isEmpty_iff.mp h
        simp [h, h2]
      · simp [h, flush_batch]
    | timeout =>
      have hterm2 : QueueEvent.terminate ∈ evs := by
        rcases List.mem_cons.mp hterm with h | h
        · exact absurd h (by simp)
        · exact h
      obtain ⟨h1, h2⟩ :=
        ih (if st.wfs.isEmpty then st else flush_batch batch_size st) hterm2
      refine ⟨?_, h2⟩
      show (infer_loop batch_size
          (if st.wfs.isEmpty then st else flush_batch batch_size st) evs).flushed.flatten
        = st.flushed.flatten ++ st.wfs ++ accepted_windows (QueueEvent.timeout :: evs)
      rw [h1]
      by_cases h : st.wfs.isEmpty
      · have h3 : st.wfs = [] := List.isEmpty_iff.mp h
        simp [h, h3, accepted_windows]
      · simp [h, flush_batch, accepted_windows]
    | item wf =>
      have hterm2 : QueueEvent.terminate ∈ evs := by
        rcases List.mem_cons.mp hterm with h | h
        · exact absurd h (by simp)
        · exact h
      obtain ⟨h1, h2⟩ := ih (collect_window batch_size st wf) hterm2
      refine ⟨?_, h2⟩
      show (infer_loop batch_size (collect_window batch_size st wf) evs).flushed.flatten
        = st.flushed.flatten ++ st.wfs ++ accepted_windows (QueueEvent.item wf :: evs)
      rw [h1]
      have hp := collect_window_potential batch_size st wf
      calc (collect_window batch_size st wf).flushed.flatten
            ++ (collect_window batch_size st wf).wfs ++ accepted_windows evs
          = (st.flushed.flatten ++ st.wfs ++ [wf]) ++ accepted_windows evs := by
            rw [hp]
        _ = st.flushed.flatten ++ st.wfs ++ accepted_windows (QueueEvent.item wf :: evs) := by
            simp [accepted_windows, List.append_assoc]

/-- Claim C6: the inference worker never discards accumulated windows: a pop
timeout with a non-empty accumulator flushes (invoking `batch_infer`) and
continues, and queue termination with a non-empty accumulator flushes before
exiting; hence over any queue trace that terminates, the concatenation of all
batches handed to `batch_infer` is exactly the sequence of windows accepted
into the accumulator, and the accumulator is empty when the worker exits.
(The 10-second deadline is wall-clock behaviour, abstracted as the timeout
event of the trace.) -/
theorem c6_accepted_windows_all_flushed (batch_size : Int)
    (evs : List QueueEvent) (hterm : QueueEvent.terminate ∈ evs) :
    (infer_loop batch_size ⟨[], batch_size, []⟩ evs).flushed.flatten
        = accepted_windows evs
    ∧ (infer_loop batch_size ⟨[], batch_size, []⟩ evs).wfs = [] := by
  obtain ⟨h1, h2⟩ := infer_loop_flushes_all batch_size evs ⟨[], batch_size, []⟩ hterm
  refine ⟨?_, h2⟩
  rw [h1]
  simp

/-- Witness for C6 on a concrete trace with a timeout flush and a non-empty
accumulator at termination. -/
theorem c6_accepted_windows_all_flushed_witness :
    (infer_loop 4 ⟨[], 4, []⟩
        [QueueEvent.item wf_infer, QueueEvent.timeout, QueueEvent.item wf_wide,
         QueueEvent.terminate]).flushed.flatten = [wf_infer, wf_wide]
    ∧ (infer_loop 4 ⟨[], 4, []⟩
        [QueueEvent.item wf_infer, QueueEvent.timeout, QueueEvent.item wf_wide,
         QueueEvent.terminate]).wfs = [] := by
  obtain ⟨h1, h2⟩ := c6_accepted_windows_all_flushed 4
    [QueueEvent.item wf_infer, QueueEvent.timeout, QueueEvent.item wf_wide,
     QueueEvent.terminate] (by decide)
  exact ⟨by rw [h1]; rfl, h2⟩

/-- Claim C7: on a transient backend error during a batch flush (CUDA build),
the device-side allocator cache is cleared exactly once and the very same batch
is retried exactly once; a successful first attempt clears nothing and runs a
single forward call; a failure of the retry is not caught — its error is the
outcome and propagates as fatal. -/
theorem c7_transient_error_retried_once {α : Type} (out : α) (m1 m2 : String)
    (retry : ForwardResult α) :
    forward_with_retry (ForwardResult.ok out) retry
        = ⟨ForwardResult.ok out, 0, 1⟩
    ∧ forward_with_retry (ForwardResult.err m1) retry = ⟨retry, 1, 2⟩
    ∧ forward_with_retry (ForwardResult.err m1)
        (ForwardResult.err m2 : ForwardResult α)
        = ⟨ForwardResult.err m2, 1, 2⟩ :=
  ⟨rfl, rfl, rfl⟩

/-- Claim C9, evaluated at the failing input (code bug): after the
move-to-device block the collated bases, quals and length tensors do reside on
the worker's device `cuda:0`, but an indices tensor that was on the CPU is
passed to the backend still on the CPU — the `std::for_each` discards the
tensor returned by `t.to(device)`. -/
theorem c9_indices_batch_left_on_cpu :
    (move_to_device (Device.cuda 0) ⟨Device.cpu, 0⟩ ⟨Device.cpu, 1⟩
        ⟨Device.cpu, 2⟩ [⟨Device.cpu, 3⟩]).batched_bases.device = Device.cuda 0
    ∧ (move_to_device (Device.cuda 0) ⟨Device.cpu, 0⟩ ⟨Device.cpu, 1⟩
        ⟨Device.cpu, 2⟩ [⟨Device.cpu, 3⟩]).batched_quals.device = Device.cuda 0
    ∧ (move_to_device (Device.cuda 0) ⟨Device.cpu, 0⟩ ⟨Device.cpu, 1⟩
        ⟨Device.cpu, 2⟩ [⟨Device.cpu, 3⟩]).length_tensor.device = Device.cuda 0
    ∧ (move_to_device (Device.cuda 0) ⟨Device.cpu, 0⟩ ⟨Device.cpu, 1⟩
        ⟨Device.cpu, 2⟩ [⟨Device.cpu, 3⟩]).indices_batch.map MTensor.device
        = [Device.cpu] := by
  decide

/-! ### Claims C5, C8, C10: the ingestion path and the reassembly maps -/

theorem input_step_key_sync (decodeW : WindowFeatures → String) (st : CorrState)
    (tname : String) (wfs : List WindowFeatures) (h : maps_key_sync st) :
    maps_key_sync (input_step decodeW st tname wfs).1 := by
  unfold input_step
  by_cases he : (wfs.filter needs_inference).isEmpty
  · simpa [he] using h
  · simp only [he, Bool.false_eq_true, if_false]
    cases hf : st.features tname with
    | some v => simpa [hf] using h
    | none =>
      simp only [hf]
      intro n
      by_cases hn : n = tname
      · simp [hn]
      · simpa [hn] using h n

theorem decode_event_key_sync (st : CorrState) (name : String) (idx : Nat)
    (s : String) (h : maps_key_sync st) :
    maps_key_sync (decode_event st name idx s).1 := by
  unfold decode_event
  cases hf : st.features name with
  | none => simpa [hf] using h
  | some slots =>
    cases hp : st.pending name with
    | none => simpa [hf, hp] using h
    | some p =>
      simp only [hf, hp]
      by_cases hz : p - 1 = 0
      · simp only [hz, if_true]
        intro n
        by_cases hn : n = name
        · simp [hn]
        · simpa [hn] using h n
      · simp only [hz, if_false]
        intro n
        by_cases hn : n = name
        · simp [hn]
        · simpa [hn] using h n

/-- Claim C10: every operation inserts into both maps or erases from both under
the features mutex, so at every point where the mutex is not held — i.e. after
any interleaving of ingestion and decoded-window events starting from empty
maps — `m_features_by_id` and `m_pending_features_by_id` hold exactly the same
read-name keys. -/
theorem c10_maps_share_keys (decodeW : WindowFeatures → String)
    (evs : List CorrEvent) :
    maps_key_sync (corr_run decodeW empty_state evs) := by
  have h : ∀ st, maps_key_sync st → maps_key_sync (corr_run decodeW st evs) := by
    induction evs with
    | nil =>
      intro st h
      simpa [corr_run] using h
    | cons e evs ih =>
      intro st h
      cases e with
      | input t wfs => exact ih _ (input_step_key_sync _ _ _ _ h)
      | decoded n i s => exact ih _ (decode_event_key_sync _ _ _ _ h)
  exact h empty_state fun n => rfl

/-- Claim C8 counterexample: a second message for a read name that already has
an entry in the maps is NOT always dropped — when all of its windows are
trivial the duplicate check is never reached and the message is concatenated
and emitted immediately (here as the record `("r", "A")`). -/
theorem c8_counterexample_trivial_duplicate_emitted :
    ((input_step trivial_decode empty_state "r" [wf_infer]).1.features "r").isSome
        = true
    ∧ (input_step trivial_decode
        (input_step trivial_decode empty_state "r" [wf_infer]).1
        "r" [wf_trivial]).2.2 = [⟨"r", "A"⟩] := by
  constructor
  · rfl
  · rfl

/-- Claim C8 (amended): when an input message's target read name already has an
entry in the reassembly maps and at least one of its windows needs inference,
the message is logged and dropped: the maps are unchanged, no window is pushed
to the features queue, and nothing is emitted — so the first read with that
name completes exactly as if the duplicate had never arrived. -/
theorem c8_duplicate_with_inference_dropped (decodeW : WindowFeatures → String)
    (st : CorrState) (tname : String) (wfs : List WindowFeatures)
    (hdup : (st.features tname).isSome = true)
    (hinf : wfs.filter needs_inference ≠ []) :
    input_step decodeW st tname wfs = (st, [], []) := by
  obtain ⟨v, hv⟩ := Option.isSome_iff_exists.mp hdup
  unfold input_step
  have he : (wfs.filter needs_inference).isEmpty = false := by
    simpa [List.isEmpty_iff] using hinf
  simp only [he, Bool.false_eq_true, if_false, hv]

/-- Witness for the amended C8: a duplicate message carrying an inference
window is dropped without touching anything. -/
theorem c8_duplicate_with_inference_dropped_witness :
    input_step trivial_decode
        (input_step trivial_decode empty_state "r" [wf_infer]).1 "r" [wf_infer]
      = ((input_step trivial_decode empty_state "r" [wf_infer]).1, [], []) :=
  c8_duplicate_with_inference_dropped trivial_decode _ "r" [wf_infer] rfl
    (by decide)

/-- Claim C5: a window is pushed to the features queue iff `n_alns > 1` and its
supported-column list is non-empty; for a message all of whose windows are
trivial, exactly one completion (concatenate-and-emit) happens immediately in
the input worker, with no entry created in the reassembly maps and nothing
pushed to the features queue. -/
theorem c5_trivial_windows_complete_immediately
    (decodeW : WindowFeatures → String) (st : CorrState) (tname : String)
    (wfs : List WindowFeatures)
    (hfresh : st.features tname = none) :
    (input_step decodeW st tname wfs).2.1
        = wfs.filter fun wf =>
            decide (1 < wf.n_alns) && decide (0 < wf.supported.length)
    ∧ ((∀ wf ∈ wfs, ¬(1 < wf.n_alns ∧ 0 < wf.supported.length)) →
        input_step decodeW st tname wfs
          = (st, [], concat_features_and_send (wfs.map decodeW) tname)) := by
  have hpred : (wfs.filter fun wf =>
      decide (1 < wf.n_alns) && decide (0 < wf.supported.length))
      = wfs.filter needs_inference := rfl
  constructor
  · rw [hpred]
    unfold input_step
    by_cases he : (wfs.filter needs_inference).isEmpty
    · simp only [he, if_true]
      exact (List.isEmpty_iff.mp he).symm
    · simp only [he, Bool.false_eq_true, if_false, hfresh]
  · intro hall
    have hni : ∀ wf ∈ wfs, needs_inference wf = false := by
      intro wf hwf
      have h := hall wf hwf
      unfold needs_inference
      by_cases h1 : 1 < wf.n_alns
      · by_cases h2 : 0 < wf.supported.length
        · exact absurd ⟨h1, h2⟩ h
        · simp [h2]
      · simp [h1]
    have hfe : wfs.filter needs_inference = [] := by
      apply List.filter_eq_nil_iff.mpr
      intro wf hwf
      simp [hni wf hwf]
    have he : (wfs.filter needs_inference).isEmpty = true := by
      simp [hfe]
    have hmap : (wfs.map fun wf => if needs_inference wf then "" else decodeW wf)
        = wfs.map decodeW := by
      apply List.map_congr_left
      intro wf hwf
      simp [hni wf hwf]
    unfold input_step
    simp only [he, if_true, hmap]

/-- Witness for C5: an all-trivial message is emitted immediately. -/
theorem c5_trivial_windows_complete_immediately_witness :
    (input_step trivial_decode empty_state "r" [wf_trivial]).2.1 = []
    ∧ input_step trivial_decode empty_state "r" [wf_trivial]
        = (empty_state, [], concat_features_and_send ["A"] "r") := by
  have h := c5_trivial_windows_complete_immediately trivial_decode empty_state "r"
    [wf_trivial] rfl
  refine ⟨?_, ?_⟩
  · rw [h.1]
    rfl
  · exact h.2 (by decide)

/-! ### Claim C3: splitting the predictions -/

theorem split_with_sizes_total {α : Type} (sizes : List Nat) :
    ∀ preds : List α, preds.length = sizes.sum →
      ∃ pieces, split_with_sizes preds sizes = some pieces
        ∧ pieces.map List.length = sizes := by
  induction sizes with
  | nil =>
    intro preds h
    have hnil : preds = [] := List.length_eq_zero.mp (by simpa using h)
    subst hnil
    exact ⟨[], by simp [split_with_sizes], rfl⟩
  | cons n ns ih =>
    intro preds h
    have hsum : preds.length = n + ns.sum := by simpa [List.sum_cons] using h
    have hlen : n ≤ preds.length := by omega
    obtain ⟨pieces, hp, hl⟩ := ih (preds.drop n) (by
      rw [List.length_drop]
      omega)
    refine ⟨preds.take n :: pieces, ?_, ?_⟩
    · unfold split_with_sizes
      simp [hlen, hp]
    · simp [hl, List.length_take_of_le hlen]

theorem store_decoded_lengths (ps : List (List (Fin 5))) :
    ∀ wfs : List WindowFeatures, wfs.length = ps.length →
      ((wfs.zip ps).map fun p =>
          ({ p.1 with inferred_bases := decode_preds p.2 } : WindowFeatures)).map
        (fun wf => wf.inferred_bases.length)
        = ps.map List.length := by
  induction ps with
  | nil =>
    intro wfs h
    cases wfs <;> simp_all
  | cons p ps ih =>
    intro wfs h
    cases wfs with
    | nil => simp at h
    | cons w ws =>
      have hws : ws.length = ps.length := by simpa using h
      simp only [List.zip_cons_cons, List.map_cons, List.cons.injEq]
      exact ⟨by simp [decode_preds], ih ws hws⟩

/-- Claim C3: for a flushed batch, the argmax prediction vector — one entry per
supported column of each window, by the backend contract — is split by the
accumulated `sizes` so that window i receives a 1-D prediction vector of length
`|supported_i|`, and window i's `inferred_bases` after decoding has length
`|supported_i|`.  (The `length` field of a window equals `|supported|`; see
`extract_features_length`, modelled from the spec because feature extraction
is not among the sources here.) -/
theorem c3_predictions_split_by_sizes (preds : List (Fin 5))
    (wfs : List WindowFeatures)
    (hlen : ∀ wf ∈ wfs, wf.length = extract_features_length wf.supported)
    (hsum : preds.length = (wfs.map fun wf => wf.supported.length).sum) :
    ∃ out, split_predictions preds wfs = some out
      ∧ out.map (fun wf => wf.inferred_bases.length)
          = wfs.map fun wf => wf.supported.length := by
  have hsizes : wfs.map WindowFeatures.length
      = wfs.map fun wf => wf.supported.length := by
    apply List.map_congr_left
    intro wf hwf
    simpa [extract_features_length] using hlen wf hwf
  obtain ⟨pieces, hp, hl⟩ :=
    split_with_sizes_total (wfs.map WindowFeatures.length) preds
      (by rw [hsum, hsizes])
  have hplen : wfs.length = pieces.length := by
    have h2 := congrArg List.length hl
    simpa using h2.symm
  refine ⟨(wfs.zip pieces).map fun p =>
      ({ p.1 with inferred_bases := decode_preds p.2 } : WindowFeatures), ?_, ?_⟩
  · unfold split_predictions
    rw [hp]
    rfl
  · rw [store_decoded_lengths pieces wfs hplen, hl, hsizes]

/-- Witness for C3: a batch of two windows with 1 and 2 supported columns and a
3-entry prediction vector. -/
theorem c3_predictions_split_by_sizes_witness :
    ∃ out, split_predictions [(0 : Fin 5), 1, 2] [wf_infer, wf_wide] = some out
      ∧ out.map (fun wf => wf.inferred_bases.length)
          = [wf_infer, wf_wide].map fun wf => wf.supported.length :=
  c3_predictions_split_by_sizes [(0 : Fin 5), 1, 2] [wf_infer, wf_wide]
    (by decide) (by decide)

/-! ### Claim C2: per-read completion -/

theorem decode_run_pending (name : String) (evs : List (Nat × String)) :
    ∀ st : ReadEntry,
      (decode_run name st evs).1.pending = st.pending - evs.length := by
  induction evs with
  | nil =>
    intro st
    simp [decode_run]
  | cons e evs ih =>
    intro st
    obtain ⟨idx, s⟩ := e
    show (decode_run name (decode_write st idx s) evs).1.pending = _
    rw [ih]
    simp only [decode_write, List.length_cons]
    push_cast
    ring

theorem decode_run_wc (name : String) (evs : List (Nat × String)) :
    ∀ (st : ReadEntry) (i : Nat),
      (decode_run name st evs).1.wc i = st.wc i + (evs.map Prod.fst).count i := by
  induction evs with
  | nil =>
    intro st i
    simp [decode_run]
  | cons e evs ih =>
    intro st i
    obtain ⟨idx, s⟩ := e
    show (decode_run name (decode_write st idx s) evs).1.wc i = _
    rw [ih]
    simp only [decode_write, List.map_cons, List.count_cons]
    by_cases h : i = idx
    · subst h
      simp
      omega
    · simp only [h, if_false]
      have h2 : ¬idx = i := fun he => h he.symm
      simp [h, h2]

theorem decode_run_emissions (name : String) (evs : List (Nat × String)) :
    ∀ st : ReadEntry,
      (decode_run name st evs).2.length
        = if 1 ≤ st.pending ∧ st.pending ≤ (evs.length : Int) then 1 else 0 := by
  induction evs with
  | nil =>
    intro st
    simp only [decode_run, List.length_nil, Nat.cast_zero]
    split_ifs with h
    · obtain ⟨h1, h2⟩ := h
      omega
    · rfl
  | cons e evs ih =>
    intro st
    obtain ⟨idx, s⟩ := e
    show ((if (decode_write st idx s).pending = 0
            then [concat_features_and_send (decode_write st idx s).slots name]
            else [])
          ++ (decode_run name (decode_write st idx s) evs).2).length = _
    rw [List.length_append, ih]
    simp only [decode_write, List.length_cons, apply_ite List.length,
      List.length_singleton, List.length_nil]
    split_ifs <;> omega

theorem filter_range_succ_aux {α : Type} (p : α → Bool) (b : Bool) (t : List α) :
    (((List.range t.length).map Nat.succ).filter
        fun i => (b :: t.map p)[i]?.getD false)
      = ((List.range t.length).filter
          fun i => (Option.map p t[i]?).getD false).map Nat.succ := by
  rw [List.filter_map]
  apply congrArg
  apply List.filter_congr
  intro i hi
  simp

theorem filter_length_eq_indices {α : Type} (p : α → Bool) (l : List α) :
    ((List.range l.length).filter fun i => (l.map p).getD i false).length
      = (l.filter p).length := by
  induction l with
  | nil => simp
  | cons a t ih =>
    simp only [List.length_cons, List.map_cons]
    rw [List.range_succ_eq_map, List.filter_cons, List.filter_cons]
    simp only [List.getD_cons_zero]
    by_cases hpa : p a <;>
      simp [hpa] <;>
      (rw [filter_range_succ_aux]
       simp only [List.length_map]
       simp only [List.getD_eq_getElem?_getD, List.getElem?_map] at ih
       exact ih)

theorem mem_inference_indices (wfs : List WindowFeatures) (i : Nat) :
    i ∈ inference_indices wfs
      ↔ i < wfs.length ∧ (wfs.map needs_inference).getD i false = true := by
  unfold inference_indices
  simp [List.mem_filter, List.mem_range]

theorem length_le_of_nodup_subset {α : Type} [DecidableEq α] (l1 l2 : List α)
    (h1 : l1.Nodup) (hs : l1 ⊆ l2) : l1.length ≤ l2.length := by
  have e1 : l1.toFinset.card = l1.length := List.toFinset_card_of_nodup h1
  have h2 : l1.toFinset ⊆ l2.toFinset := by
    intro a ha
    simp only [List.mem_toFinset] at *
    exact hs ha
  have h3 := Finset.card_le_card h2
  have h4 : l2.toFinset.card ≤ l2.length := l2.toFinset_card_le
  omega

theorem mem_of_superset_length_le {α : Type} [DecidableEq α] (l1 l2 : List α)
    (h1 : l1.Nodup) (h2 : l2.Nodup) (hs : l1 ⊆ l2) (hl : l2.length ≤ l1.length) :
    ∀ a ∈ l2, a ∈ l1 := by
  have e1 : l1.toFinset.card = l1.length := List.toFinset_card_of_nodup h1
  have e2 : l2.toFinset.card = l2.length := List.toFinset_card_of_nodup h2
  have hsub : l1.toFinset ⊆ l2.toFinset := by
    intro a ha
    simp only [List.mem_toFinset] at *
    exact hs ha
  have hcard : l2.toFinset.card ≤ l1.toFinset.card := by omega
  have hback : l2.toFinset ⊆ l1.toFinset := by
    have heq := Finset.eq_of_subset_of_card_le hsub hcard
    rw [heq]
  intro a ha
  have := hback (List.mem_toFinset.mpr ha)
  simpa using this

theorem getD_default_eq (l : List Bool) (i : Nat) (h : i < l.length) :
    l.getD i true = l.getD i false := by
  rw [List.getD_eq_getElem _ _ h, List.getD_eq_getElem _ _ h]

/-- Claim C2: for a read with a pending reassembly record, each decoded window
writes its string into slot `window_idx` and decrements the pending counter;
over any sequence of decoded windows (distinct indices, all of windows that
were dispatched to inference), the counter reaches 0 iff every slot has been
written exactly once (trivial slots by the trivial decode at ingestion,
inference slots by the decode stage); concatenation is invoked exactly once,
exactly when the counter reaches 0; and at that completing decode the slot
vector is moved out and both map entries are erased. -/
theorem c2_completion_exactly_once (decodeW : WindowFeatures → String)
    (wfs : List WindowFeatures) (name : String) (evs : List (Nat × String))
    (hrec : inference_indices wfs ≠ [])
    (hnd : (evs.map Prod.fst).Nodup)
    (hmem : ∀ p ∈ evs, p.1 ∈ inference_indices wfs) :
    ((decode_run name (initial_entry decodeW wfs) evs).1.pending
        = ((inference_indices wfs).length : Int) - (evs.length : Int))
    ∧ ((decode_run name (initial_entry decodeW wfs) evs).1.pending = 0
        ↔ ∀ i < wfs.length,
            (decode_run name (initial_entry decodeW wfs) evs).1.wc i = 1)
    ∧ ((decode_run name (initial_entry decodeW wfs) evs).2.length
        = if (decode_run name (initial_entry decodeW wfs) evs).1.pending = 0
          then 1 else 0)
    ∧ (∀ (st : CorrState) (idx : Nat) (s : String) (slots : List String),
        st.features name = some slots → st.pending name = some 1 →
        (decode_event st name idx s).1.features name = none
        ∧ (decode_event st name idx s).1.pending name = none
        ∧ (decode_event st name idx s).2 = some (slots.set idx s)) := by
  have hlen_eq : (wfs.filter needs_inference).length
      = (inference_indices wfs).length :=
    (filter_length_eq_indices needs_inference wfs).symm
  have hp0 : (initial_entry decodeW wfs).pending
      = ((inference_indices wfs).length : Int) := by
    simp [initial_entry, hlen_eq]
  have hnd_inf : (inference_indices wfs).Nodup :=
    List.Nodup.filter _ (List.nodup_range _)
  have hsub : ∀ x ∈ evs.map Prod.fst, x ∈ inference_indices wfs := by
    intro x hx
    obtain ⟨p, hp, rfl⟩ := List.mem_map.mp hx
    exact hmem p hp
  have hle : evs.length ≤ (inference_indices wfs).length := by
    have h1 := length_le_of_nodup_subset (evs.map Prod.fst) (inference_indices wfs)
      hnd (fun a ha => hsub a ha)
    simpa using h1
  have hpend := decode_run_pending name evs (initial_entry decodeW wfs)
  rw [hp0] at hpend
  refine ⟨hpend, ?_, ?_, ?_⟩
  · -- pending reaches 0 iff every slot was written exactly once
    constructor
    · intro hz
      have hlen2 : evs.length = (inference_indices wfs).length := by
        rw [hpend] at hz
        omega
      have hcover : ∀ j ∈ inference_indices wfs, j ∈ evs.map Prod.fst := by
        apply mem_of_superset_length_le (evs.map Prod.fst) (inference_indices wfs)
          hnd hnd_inf (fun a ha => hsub a ha)
        simp [hlen2]
      intro i hi
      have hwc := decode_run_wc name evs (initial_entry decodeW wfs) i
      rw [hwc]
      have hbs : i < (wfs.map needs_inference).length := by simpa using hi
      cases hni : (wfs.map needs_inference).getD i false
      · -- trivial window: written once at ingestion, no decode event
        have hwc0 : (initial_entry decodeW wfs).wc i = 1 := by
          have hrw : (wfs.map needs_inference).getD i true = false := by
            rw [getD_default_eq _ _ hbs, hni]
          simp only [initial_entry, hrw, Bool.false_eq_true, if_false]
        have hnotin : i ∉ evs.map Prod.fst := by
          intro hin
          have := (mem_inference_indices wfs i).mp (hsub i hin)
          rw [hni] at this
          exact absurd this.2 (by simp)
        rw [hwc0, List.count_eq_zero.mpr hnotin]
      · -- inference window: initially unwritten, exactly one decode event
        have hwc0 : (initial_entry decodeW wfs).wc i = 0 := by
          have hrw : (wfs.map needs_inference).getD i true = true := by
            rw [getD_default_eq _ _ hbs, hni]
          simp only [initial_entry, hrw, if_true]
        have hin : i ∈ evs.map Prod.fst :=
          hcover i ((mem_inference_indices wfs i).mpr ⟨hi, hni⟩)
        rw [hwc0, List.count_eq_one_of_mem hnd hin]
    · intro hall
      have hsub2 : ∀ j ∈ inference_indices wfs, j ∈ evs.map Prod.fst := by
        intro j hj
        obtain ⟨hjn, hjt⟩ := (mem_inference_indices wfs j).mp hj
        have hwc := decode_run_wc name evs (initial_entry decodeW wfs) j
        have h1 := hall j hjn
        rw [hwc] at h1
        have hbs : j < (wfs.map needs_inference).length := by simpa using hjn
        have hwc0 : (initial_entry decodeW wfs).wc j = 0 := by
          have hrw : (wfs.map needs_inference).getD j true = true := by
            rw [getD_default_eq _ _ hbs, hjt]
          simp only [initial_entry, hrw, if_true]
        rw [hwc0] at h1
        have hcount : 0 < (evs.map Prod.fst).count j := by omega
        exact List.count_pos_iff.mp hcount
      have hge : (inference_indices wfs).length ≤ evs.length := by
        have h1 := length_le_of_nodup_subset (inference_indices wfs)
          (evs.map Prod.fst) hnd_inf (fun a ha => hsub2 a ha)
        simpa using h1
      rw [hpend]
      have : evs.length = (inference_indices wfs).length := by omega
      rw [this]
      ring
  · -- concatenation is invoked exactly once, exactly at completion
    have hemit := decode_run_emissions name evs (initial_entry decodeW wfs)
    rw [hemit, hp0, hpend]
    have hpos : 0 < (inference_indices wfs).length := List.length_pos.mpr hrec
    split_ifs <;> omega
  · -- the completing decode erases both maps and moves the slots out
    intro st idx s slots hf hp
    unfold decode_event
    rw [hf, hp]
    have h10 : (1 : Int) - 1 = 0 := rfl
    refine ⟨?_, ?_, ?_⟩ <;> simp [h10]

/-- Witness for C2: one trivial and one inference window, decoded by a single
event for slot 1, completing the read. -/
theorem c2_completion_exactly_once_witness :
    ((decode_run "r" (initial_entry trivial_decode [wf_trivial, wf_infer])
        [(1, "T")]).1.pending = 0)
    ∧ ((decode_run "r" (initial_entry trivial_decode [wf_trivial, wf_infer])
        [(1, "T")]).2.length = 1)
    ∧ (∀ i < 2,
        (decode_run "r" (initial_entry trivial_decode [wf_trivial, wf_infer])
          [(1, "T")]).1.wc i = 1) := by
  have h := c2_completion_exactly_once trivial_decode [wf_trivial, wf_infer] "r"
    [(1, "T")] (by decide) (by decide) (by decide)
  have hpz : (decode_run "r" (initial_entry trivial_decode [wf_trivial, wf_infer])
      [(1, "T")]).1.pending = 0 := by
    rw [h.1]
    decide
  refine ⟨hpz, ?_, ?_⟩
  · rw [h.2.2.1, if_pos hpz]
  · intro i hi
    exact (h.2.1.mp hpz) i hi

end DoradoCorrection
